import Mathlib

/-!
# RingBuf: a byte-indexed ring buffer (ringbuf.h)

A shallow embedding of `template <class RingBufEntry, uint8_t Size> class RingBuf`
and a verification development over it.

Conventions of the embedding.

* The template parameter `Size` is the explicit argument `N`; the source stores it
  in a `uint8_t`, and the theorems assume `1 ≤ N ≤ 255` where they need it.
* `uint8_t` and `uint16_t` values are natural numbers; every assignment to a
  `uint8_t` field or result reduces modulo `256`, every `uint16_t` sum modulo
  `65536`.  The `int16_t` local of `count()` is an integer: it holds the difference
  of two bytes, possibly plus `Size`, which always fits sixteen bits.
* The storage `buf[Size]` is a map from slot index to entry.  It is not
  initialised by the constructor, so a new buffer takes its initial storage as an
  argument.  Only the slots below `Size` exist: a read returns `none` when its
  index is outside `[0, Size)`.
* An operation that returns a value and changes the object returns the pair
  `(value, new state)`.
-/

namespace RingBuffer

/-- The three state fields of `RingBuf` and its storage array. -/
structure RingBuf (α : Type) where
  /-- Field `uint8_t consumeOffset`: offset where the next entry can be read. -/
  consumeOffset : Nat
  /-- Field `uint8_t loadOffset`: offset where the next entry can be stored, plus one. -/
  loadOffset : Nat
  /-- Field `bool empty`. -/
  empty : Bool
  /-- Field `RingBufEntry buf[Size]`. -/
  buf : Nat → α

namespace RingBuf

variable {α : Type}

/-- The constructor `RingBuf()`: both offsets `0`, `empty` set; the storage is
whatever the memory held. -/
def new (init : Nat → α) : RingBuf α :=
  { consumeOffset := 0, loadOffset := 0, empty := true, buf := init }

/-- A read `buf[i]` of the storage array of `N` slots. -/
def slot (N : Nat) (s : RingBuf α) (i : Nat) : Option α :=
  if i < N then some (s.buf i) else none

/-- Method `count()`. -/
def count (N : Nat) (s : RingBuf α) : Nat :=
  let ret : Int := (s.loadOffset : Int) - (s.consumeOffset : Int)
  let ret : Int := if ret < 0 then ret + (N : Int) else ret
  if ret = 0 ∧ s.empty = false then N % 256
  else (ret % 256).toNat

/-- Method `available()`: `Size - count()`, computed in `int` and returned as a byte. -/
def available (N : Nat) (s : RingBuf α) : Nat :=
  (((N : Int) - (s.count N : Int)) % 256).toNat

/-- Method `peek()`. -/
def peek (N : Nat) (s : RingBuf α) : Option α :=
  s.slot N s.consumeOffset

/-- The storage index that `at(idx)` reads. -/
def atOffset (N : Nat) (s : RingBuf α) (idx : Nat) : Nat :=
  let offset := (s.consumeOffset + idx) % 65536
  if offset ≥ N then (offset - N) % 65536 else offset

/-- Method `at(idx)`. -/
def at_ (N : Nat) (s : RingBuf α) (idx : Nat) : Option α :=
  s.slot N (s.atOffset N idx)

/-- The storage index that `atAbs(idx)` reads. -/
def atAbsOffset (N : Nat) (idx : Nat) : Nat :=
  let offset := idx % 65536
  if offset ≥ N then (offset - N) % 65536 else offset

/-- Method `atAbs(idx)`. -/
def atAbs (N : Nat) (s : RingBuf α) (idx : Nat) : Option α :=
  s.slot N (atAbsOffset N idx)

/-- Method `remove(c)`: the returned byte and the new state.  The source's
`MIN(c, count())` is evaluated after `empty` may have been set. -/
def remove (N : Nat) (s : RingBuf α) (c : Nat) : Nat × RingBuf α :=
  let countWas := s.count N
  let s1 : RingBuf α := if s.count N ≤ c then { s with empty := true } else s
  let m := if c < s1.count N then c else s1.count N
  let newConsume := (s1.consumeOffset % 65536 + m % 65536) % 65536
  let newConsume := if newConsume ≥ N then (newConsume - N) % 65536 else newConsume
  let s2 : RingBuf α := { s1 with consumeOffset := newConsume % 256 }
  let s3 : RingBuf α := if s2.empty then { s2 with loadOffset := s2.consumeOffset } else s2
  ((((countWas : Int) - (s3.count N : Int)) % 256).toNat, s3)

/-- Method `take()`: the entry read and the new state. -/
def take (N : Nat) (s : RingBuf α) : Option α × RingBuf α :=
  let offset := s.consumeOffset % 65536
  let ret := s.slot N offset
  let offset := (offset + 1) % 65536
  let offset := if offset ≥ N then (offset - N) % 65536 else offset
  let s1 : RingBuf α := if s.count N = 1 then { s with empty := true } else s
  (ret, { s1 with consumeOffset := offset % 256 })

/-- Method `insert(entry)`. -/
def insert (N : Nat) (s : RingBuf α) (entry : α) : RingBuf α :=
  let s1 : RingBuf α := if s.available N = 0 then (s.remove N 1).2 else s
  let lo := s1.loadOffset
  let lo := if lo ≥ N then 0 else lo
  let s2 : RingBuf α := { s1 with buf := Function.update s1.buf lo entry }
  let lo := (lo + 1) % 256
  { s2 with loadOffset := lo, empty := false }

/-- Method `insertIfOK(entry)`: the returned flag and the new state. -/
def insertIfOK (N : Nat) (s : RingBuf α) (entry : α) : Bool × RingBuf α :=
  let ret : Bool := decide (s.available N ≠ 0)
  (ret, if ret then s.insert N entry else s)

end RingBuf

/-- One call of a state-changing method. -/
inductive Op (α : Type) where
  | insert (e : α)
  | insertIfOK (e : α)
  | remove (c : Nat)
  | take

namespace Op

variable {α : Type}

/-- The state after one call. -/
def step (N : Nat) (s : RingBuf α) : Op α → RingBuf α
  | insert e => s.insert N e
  | insertIfOK e => (s.insertIfOK N e).2
  | remove c => (s.remove N c).2
  | take => (s.take N).2

/-- The state after a sequence of calls, first call first. -/
def run (N : Nat) (s : RingBuf α) : List (Op α) → RingBuf α
  | [] => s
  | op :: ops => run N (step N s op) ops

/-- Whether a call respects the precondition of `take()`, which is `count() > 0`;
the other methods have none. -/
def allowed (N : Nat) (s : RingBuf α) : Op α → Bool
  | take => decide (0 < s.count N)
  | _ => true

/-- Whether every `take()` of a sequence of calls is made with `count() > 0`. -/
def guarded (N : Nat) (s : RingBuf α) : List (Op α) → Bool
  | [] => true
  | op :: ops => allowed N s op && guarded N (step N s op) ops

/-- The values returned by the `take()` calls of a sequence of calls, in order. -/
def takes (N : Nat) (s : RingBuf α) : List (Op α) → List (Option α)
  | [] => []
  | insert e :: ops => takes N (s.insert N e) ops
  | insertIfOK e :: ops => takes N (s.insertIfOK N e).2 ops
  | remove c :: ops => takes N (s.remove N c).2 ops
  | take :: ops => (s.take N).1 :: takes N (s.take N).2 ops

/-- Whether a sequence of calls has no `take()`. -/
def noTake : List (Op α) → Bool
  | [] => true
  | insert _ :: ops => noTake ops
  | insertIfOK _ :: ops => noTake ops
  | remove _ :: ops => noTake ops
  | take :: _ => false

end Op

/-! ## Reference models

These follow the wording of the specification, not the source. -/

section Reference

variable {α : Type}

/-- The reference list of the random test, one call: `insert(e)` appends `e` and
then drops elements from the front until at most `N` remain; `remove(c)` drops
`min(c, length)` elements from the front.  The reference list has no other call. -/
def refStep (N : Nat) (l : List α) : Op α → Option (List α)
  | Op.insert e => some ((l ++ [e]).drop ((l ++ [e]).length - N))
  | Op.remove c => some (l.drop (min c l.length))
  | _ => none

/-- The reference list after a sequence of calls, when it has only `insert` and
`remove` calls. -/
def refRun (N : Nat) (l : List α) : List (Op α) → Option (List α)
  | [] => some l
  | op :: ops => (refStep N l op).bind (fun l' => refRun N l' ops)

/-- The reference queue on `insert(e)`: append, evicting the oldest entry when `N`
are already held. -/
def queueInsert (N : Nat) (q : List α) (e : α) : List α :=
  if q.length = N then q.tail ++ [e] else q ++ [e]

/-- The reference queue, one call: `insert` appends and evicts the oldest entry when
`N` are held, `remove(c)` drops `min(c, length)` from the front, `take` drops the front
and is made only while the queue is non-empty.  The reference queue has no
`insertIfOK`. -/
def queueStep (N : Nat) (q : List α) : Op α → Option (List α)
  | Op.insert e => some (queueInsert N q e)
  | Op.remove c => some (q.drop (min c q.length))
  | Op.take =>
    match q with
    | [] => none
    | _ :: q' => some q'
  | Op.insertIfOK _ => none

/-- The reference queue after a sequence of calls. -/
def queueRun (N : Nat) (q : List α) : List (Op α) → Option (List α)
  | [] => some q
  | op :: ops => (queueStep N q op).bind (fun q' => queueRun N q' ops)

/-- The front entries of the reference queue at its `take` calls, in order. -/
def queueTakes (N : Nat) (q : List α) : List (Op α) → Option (List α)
  | [] => some []
  | Op.take :: ops =>
    match q with
    | [] => none
    | x :: q' => (queueTakes N q' ops).map (fun out => x :: out)
  | op :: ops => (queueStep N q op).bind (fun q' => queueTakes N q' ops)

/-- The derived count of the data model: with `d = (tail - head) mod N`, the count
is `d` when `d ≠ 0`, and otherwise `0` if `empty`, else `N`. -/
def modelCount (N : Nat) (s : RingBuf α) : Nat :=
  let d : Int := ((s.loadOffset : Int) - (s.consumeOffset : Int)) % (N : Int)
  if d = 0 then (if s.empty then 0 else N) else d.toNat

end Reference

/-! ## Invariants and the representation relation -/

namespace RingBuf

variable {α : Type}

/-- Both offsets are inside their ranges: `consumeOffset < Size`, `loadOffset ≤ Size`. -/
def InRange (N : Nat) (s : RingBuf α) : Prop :=
  s.consumeOffset < N ∧ s.loadOffset ≤ N

/-- One conditional subtraction of `N`, as the source wraps an offset around. -/
def wrap (N x : Nat) : Nat := if N ≤ x then x - N else x

/-- The part of `insert` after the eviction: wrap `loadOffset`, store the entry,
advance `loadOffset`, clear `empty`. -/
def store (N : Nat) (s : RingBuf α) (entry : α) : RingBuf α :=
  { s with
    buf := Function.update s.buf (if s.loadOffset ≥ N then 0 else s.loadOffset) entry
    loadOffset := ((if s.loadOffset ≥ N then 0 else s.loadOffset) + 1) % 256
    empty := false }

/-- The state `s` represents the queue `q`: the offsets are in range, `empty` tells
whether `q` is empty, `loadOffset` is `consumeOffset + q.length` up to a multiple of
`N`, and the entries of `q` are the slots from `consumeOffset` on, wrapping around.
The third alternative for `loadOffset` is the state `consumeOffset = 0`,
`loadOffset = N`, `empty` set, in which `take` leaves the buffer. -/
structure Rep (N : Nat) (s : RingBuf α) (q : List α) : Prop where
  inRange : InRange N s
  len_le : q.length ≤ N
  empty_iff : s.empty = true ↔ q.length = 0
  offs : s.loadOffset = s.consumeOffset + q.length ∨
    s.loadOffset + N = s.consumeOffset + q.length ∨
    s.loadOffset = s.consumeOffset + q.length + N
  elems : ∀ i, i < q.length → q[i]? = some (s.buf (wrap N (s.consumeOffset + i)))

/-- An empty buffer has `loadOffset = consumeOffset`, as the constructor and `remove`
leave it. -/
def Tidy (s : RingBuf α) : Prop := s.empty = true → s.loadOffset = s.consumeOffset

end RingBuf

/-! ## Arithmetic of the methods -/

namespace RingBuf

variable {α : Type}

theorem count_eq (N : Nat) (s : RingBuf α) (hN : N ≤ 255) (h : InRange N s) :
    s.count N =
      if s.loadOffset = s.consumeOffset then (if s.empty = true then 0 else N)
      else if s.consumeOffset < s.loadOffset then s.loadOffset - s.consumeOffset
      else s.loadOffset + N - s.consumeOffset := by
  obtain ⟨h1, h2⟩ := h
  unfold count
  rcases Bool.eq_false_or_eq_true s.empty with he | he <;>
    simp only [he, Bool.false_eq_true, Bool.true_eq_false, and_true, and_false, if_false, if_true] <;>
    split_ifs <;> omega

theorem count_lt_256 (N : Nat) (s : RingBuf α) : s.count N < 256 := by
  unfold count
  simp only []
  split_ifs <;> omega

theorem count_le (N : Nat) (s : RingBuf α) (hN : N ≤ 255) (h : InRange N s) :
    s.count N ≤ N := by
  rw [count_eq N s hN h]
  obtain ⟨h1, h2⟩ := h
  split_ifs <;> omega

theorem available_eq (N : Nat) (s : RingBuf α) (hN : N ≤ 255) (h : InRange N s) :
    s.available N = N - s.count N := by
  have := count_le N s hN h
  unfold available
  omega


theorem remove_buf (N : Nat) (s : RingBuf α) (c : Nat) : (s.remove N c).2.buf = s.buf := by
  unfold remove
  simp only []
  split_ifs <;> rfl

theorem remove_empty (N : Nat) (s : RingBuf α) (c : Nat) :
    (s.remove N c).2.empty = (s.empty || decide (s.count N ≤ c)) := by
  unfold remove
  simp only []
  split_ifs <;> simp_all

theorem remove_loadOffset (N : Nat) (s : RingBuf α) (c : Nat) :
    (s.remove N c).2.loadOffset =
      if (s.remove N c).2.empty = true then (s.remove N c).2.consumeOffset else s.loadOffset := by
  unfold remove
  simp only []
  split_ifs <;> simp_all

theorem remove_consumeOffset (N : Nat) (s : RingBuf α) (c : Nat) (hN : N ≤ 255)
    (h : InRange N s) :
    (s.remove N c).2.consumeOffset =
      wrap N (s.consumeOffset +
        min c (if s.count N ≤ c then count N { s with empty := true } else s.count N)) := by
  have h1 := count_le N s hN h
  have h2 := count_le N { s with empty := true } hN h
  obtain ⟨h3, h4⟩ := h
  unfold remove wrap
  simp only []
  by_cases hc : s.count N ≤ c
  · simp only [hc, if_true]
    split_ifs <;> omega
  · simp only [hc, if_false]
    split_ifs <;> dsimp only <;> omega

theorem count_setEmpty (N : Nat) (s : RingBuf α) (hN : N ≤ 255) (h : InRange N s) :
    count N { s with empty := true } =
      if s.loadOffset = s.consumeOffset then 0
      else if s.consumeOffset < s.loadOffset then s.loadOffset - s.consumeOffset
      else s.loadOffset + N - s.consumeOffset := by
  have := count_eq N { s with empty := true } hN h
  simpa using this

theorem Rep.count_cases {N : Nat} {s : RingBuf α} {q : List α} (h : Rep N s q) (hN : N ≤ 255) :
    (s.count N = q.length ∧ (s.loadOffset = s.consumeOffset + q.length ∨
        s.loadOffset + N = s.consumeOffset + q.length)) ∨
      (q.length = 0 ∧ s.count N = N ∧ s.consumeOffset = 0 ∧ s.loadOffset = N) := by
  have hc := count_eq N s hN h.inRange
  obtain ⟨⟨h1, h2⟩, h3, h4, h5, -⟩ := h
  rcases Bool.eq_false_or_eq_true s.empty with he | he
  · have h6 : q.length = 0 := h4.mp he
    simp only [he, if_true] at hc
    split_ifs at hc <;> omega
  · have h6 : q.length ≠ 0 := fun h0 => by simp [h4.mpr h0] at he
    simp only [he, Bool.false_eq_true, if_false] at hc
    split_ifs at hc <;> omega

theorem Rep.count_of_tidy {N : Nat} {s : RingBuf α} {q : List α} (h : Rep N s q) (ht : Tidy s)
    (h1 : 1 ≤ N) (hN : N ≤ 255) : s.count N = q.length := by
  rcases h.count_cases hN with hc | ⟨h0, hc, h2, h3⟩
  · exact hc.1
  · have := ht (h.empty_iff.mpr h0)
    omega

theorem Rep.after_remove {N : Nat} {s : RingBuf α} {q : List α} (h : Rep N s q) (h1 : 1 ≤ N)
    (hN : N ≤ 255) (c : Nat) : Rep N (s.remove N c).2 (q.drop c) := by
  have hco := remove_consumeOffset N s c hN h.inRange
  have hlo := remove_loadOffset N s c
  have hem := remove_empty N s c
  have hbuf := remove_buf N s c
  have hcnt := h.count_cases hN
  have hcnt1 := count_setEmpty N s hN h.inRange
  obtain ⟨⟨hr1, hr2⟩, hlen, hiff, hoffs, hel⟩ := h
  generalize (s.remove N c).2 = s' at hco hlo hem hbuf ⊢
  unfold wrap at hco
  have hdl : (q.drop c).length = q.length - c := List.length_drop c q
  by_cases hc : s.count N ≤ c
  · -- everything is discarded
    have he' : s'.empty = true := by simp [hem, hc]
    simp only [he', if_true, hc] at hlo hco
    have hq : q.length - c = 0 := by omega
    refine ⟨⟨?_, ?_⟩, ?_, ?_, ?_, ?_⟩
    · rw [hco, hcnt1]; split_ifs <;> omega
    · rw [hlo, hco, hcnt1]; split_ifs <;> omega
    · omega
    · simp [he', hdl, hq]
    · left; omega
    · intro i hi; omega
  · have he' : s'.empty = s.empty := by simp [hem, hc]
    simp only [hc, if_false] at hco
    rcases hcnt with ⟨hcq, -⟩ | ⟨h0, hcN, hz, hlN⟩
    · -- a proper front part is discarded
      have hne : s.empty = false := by
        rcases Bool.eq_false_or_eq_true s.empty with he | he
        · have := hiff.mp he; omega
        · exact he
      rw [hne] at he'
      simp only [he', Bool.false_eq_true, if_false] at hlo
      refine ⟨⟨?_, ?_⟩, ?_, ?_, ?_, ?_⟩
      · rw [hco]; split_ifs <;> omega
      · rw [hlo]; exact hr2
      · omega
      · simp only [he', Bool.false_eq_true, false_iff]; omega
      · rw [hlo, hco, hdl]; split_ifs <;> omega
      · intro i hi
        rw [List.getElem?_drop, hel (c + i) (by omega), hbuf, hco]
        congr 2
        unfold wrap
        split_ifs <;> omega
    · -- `empty` was set although `count()` is `N`
      have he : s.empty = true := hiff.mpr h0
      rw [he] at he'
      simp only [he', if_true] at hlo
      refine ⟨⟨?_, ?_⟩, ?_, ?_, ?_, ?_⟩
      · rw [hco]; split_ifs <;> omega
      · rw [hlo, hco]; split_ifs <;> omega
      · omega
      · simp only [he', true_iff]; omega
      · left; omega
      · intro i hi; omega

theorem remove_tidy (N : Nat) (s : RingBuf α) (c : Nat) : Tidy (s.remove N c).2 := by
  intro he
  have := remove_loadOffset N s c
  rw [if_pos he] at this
  exact this

theorem Rep.remove_returns {N : Nat} {s : RingBuf α} {q : List α} (h : Rep N s q) (ht : Tidy s)
    (h1 : 1 ≤ N) (hN : N ≤ 255) (c : Nat) : (s.remove N c).1 = min c q.length := by
  have ha := h.count_of_tidy ht h1 hN
  have hb := (h.after_remove h1 hN c).count_of_tidy (remove_tidy N s c) h1 hN
  have hdl : (q.drop c).length = q.length - c := List.length_drop c q
  have hlen := h.len_le
  show ((((s.count N : Nat) : Int) - ((s.remove N c).2.count N : Int)) % 256).toNat = _
  rw [ha, hb, hdl]
  omega


theorem insert_eq_store (N : Nat) (s : RingBuf α) (e : α) :
    s.insert N e = store N (if s.available N = 0 then (s.remove N 1).2 else s) e := rfl

theorem Rep.after_store {N : Nat} {s : RingBuf α} {q : List α} (h : Rep N s q) (hN : N ≤ 255)
    (hlt : q.length < N)
    (ho : s.loadOffset = s.consumeOffset + q.length ∨
      s.loadOffset + N = s.consumeOffset + q.length) (e : α) :
    Rep N (store N s e) (q ++ [e]) := by
  obtain ⟨⟨hr1, hr2⟩, hlen, hiff, -, hel⟩ := h
  have hw : (if s.loadOffset ≥ N then 0 else s.loadOffset) = wrap N (s.consumeOffset + q.length) := by
    unfold wrap; split_ifs <;> omega
  have hl : (q ++ [e]).length = q.length + 1 := by simp
  refine ⟨⟨hr1, ?_⟩, ?_, ?_, ?_, ?_⟩
  · show ((if s.loadOffset ≥ N then 0 else s.loadOffset) + 1) % 256 ≤ N
    split_ifs <;> omega
  · omega
  · show (false = true) ↔ _
    simp
  · show ((if s.loadOffset ≥ N then 0 else s.loadOffset) + 1) % 256 = s.consumeOffset + _ ∨
      ((if s.loadOffset ≥ N then 0 else s.loadOffset) + 1) % 256 + N = s.consumeOffset + _ ∨ _
    rw [hl]
    split_ifs <;> omega
  · intro i hi
    show _ = some (Function.update s.buf (if s.loadOffset ≥ N then 0 else s.loadOffset) e
      (wrap N (s.consumeOffset + i)))
    rw [hw]
    by_cases hiq : i < q.length
    · rw [List.getElem?_append_left hiq, hel i hiq, Function.update_noteq]
      unfold wrap; split_ifs <;> omega
    · have hie : i = q.length := by omega
      subst hie
      rw [Function.update_same]
      simp


theorem Rep.after_insert {N : Nat} {s : RingBuf α} {q : List α} (h : Rep N s q) (h1 : 1 ≤ N)
    (hN : N ≤ 255) (e : α) : Rep N (s.insert N e) (queueInsert N q e) := by
  have hav := available_eq N s hN h.inRange
  have hcl := count_le N s hN h.inRange
  rw [insert_eq_store]
  unfold queueInsert
  rcases h.count_cases hN with ⟨hc, ho⟩ | ⟨h0, hc, h2, h3⟩
  · by_cases hfull : q.length = N
    · have hr := h.after_remove h1 hN 1
      have hrc := hr.count_cases hN
      have hrt := remove_tidy N s 1
      have hre := hr.empty_iff
      have hdl : (q.drop 1).length = q.length - 1 := List.length_drop 1 q
      have htl : q.tail = q.drop 1 := by cases q <;> rfl
      rw [if_pos (by omega), if_pos hfull, htl]
      refine hr.after_store hN (by omega) ?_ e
      rcases hrc with ⟨-, ho'⟩ | ⟨h0, -, h2, h3⟩
      · exact ho'
      · have := hrt (hre.mpr h0); omega
    · have hlen := h.len_le
      rw [if_neg (by omega), if_neg hfull]
      exact h.after_store hN (by omega) ho e
  · have hr := h.after_remove h1 hN 1
    have hrc := hr.count_cases hN
    have hrt := remove_tidy N s 1
    have hre := hr.empty_iff
    have hq : q = [] := List.length_eq_zero.mp h0
    subst hq
    rw [if_pos (by omega), if_neg (by simp; omega)]
    simp only [List.drop_nil, List.length_nil] at hr hre
    refine hr.after_store hN (by simp; omega) ?_ e
    have := hrt (hre.mpr trivial)
    simp only [List.length_nil]
    omega

theorem insert_tidy (N : Nat) (s : RingBuf α) (e : α) : Tidy (s.insert N e) := by
  intro he
  rw [insert_eq_store] at he
  exact absurd he (by simp [store])

theorem take_fst (N : Nat) (s : RingBuf α) :
    (s.take N).1 = s.slot N (s.consumeOffset % 65536) := rfl

theorem take_buf (N : Nat) (s : RingBuf α) : (s.take N).2.buf = s.buf := by
  unfold take
  simp only []
  split_ifs <;> rfl

theorem take_loadOffset (N : Nat) (s : RingBuf α) :
    (s.take N).2.loadOffset = s.loadOffset := by
  unfold take
  simp only []
  split_ifs <;> rfl

theorem take_empty (N : Nat) (s : RingBuf α) :
    (s.take N).2.empty = (s.empty || decide (s.count N = 1)) := by
  unfold take
  simp only []
  split_ifs <;> simp_all

theorem take_consumeOffset (N : Nat) (s : RingBuf α) (hN : N ≤ 255) (h : InRange N s) :
    (s.take N).2.consumeOffset = wrap N (s.consumeOffset + 1) := by
  obtain ⟨h3, h4⟩ := h
  unfold take wrap
  simp only []
  split_ifs <;> omega

theorem Rep.after_take {N : Nat} {s : RingBuf α} {x : α} {q : List α} (h : Rep N s (x :: q))
    (hN : N ≤ 255) : (s.take N).1 = some x ∧ Rep N (s.take N).2 q := by
  have hco := take_consumeOffset N s hN h.inRange
  have hlo := take_loadOffset N s
  have hem := take_empty N s
  have hbuf := take_buf N s
  have hcnt := h.count_cases hN
  obtain ⟨⟨hr1, hr2⟩, hlen, hiff, hoffs, hel⟩ := h
  simp only [List.length_cons] at hlen hiff hoffs hel hcnt
  have hne : s.empty = false := by
    rcases Bool.eq_false_or_eq_true s.empty with he | he
    · have := hiff.mp he; omega
    · exact he
  constructor
  · have h0 := hel 0 (by omega)
    rw [take_fst]
    unfold slot
    rw [Nat.mod_eq_of_lt (by omega), if_pos hr1]
    simp only [List.getElem?_cons_zero, Nat.add_zero] at h0
    rw [h0]
    unfold wrap
    rw [if_neg (by omega)]
  · generalize (s.take N).2 = s' at hco hlo hem hbuf ⊢
    unfold wrap at hco
    rw [hne] at hem
    refine ⟨⟨?_, ?_⟩, ?_, ?_, ?_, ?_⟩
    · rw [hco]; split_ifs <;> omega
    · rw [hlo]; exact hr2
    · omega
    · rw [hem]
      simp only [Bool.false_or, decide_eq_true_eq]
      omega
    · rw [hlo, hco]; split_ifs <;> omega
    · intro i hi
      have := hel (i + 1) (by omega)
      rw [List.getElem?_cons_succ] at this
      rw [this, hbuf, hco]
      congr 2
      unfold wrap
      split_ifs <;> omega

theorem Rep.of_new (N : Nat) (h1 : 1 ≤ N) (init : Nat → α) : Rep N (RingBuf.new init) [] :=
  ⟨⟨h1, Nat.zero_le N⟩, Nat.zero_le N, by simp [RingBuf.new], Or.inl rfl,
    fun i hi => absurd hi (Nat.not_lt_zero i)⟩

theorem new_tidy (init : Nat → α) : Tidy (RingBuf.new init) := fun _ => rfl

theorem Rep.at_eq {N : Nat} {s : RingBuf α} {q : List α} (h : Rep N s q) (hN : N ≤ 255)
    (i : Nat) (hi : i < q.length) : s.at_ N i = some (q[i]) := by
  obtain ⟨⟨hr1, hr2⟩, hlen, -, -, hel⟩ := h
  have he := hel i hi
  rw [List.getElem?_eq_getElem hi] at he
  rw [he]
  unfold at_ slot atOffset wrap
  simp only []
  split_ifs <;> first | omega | (congr 2; omega)

end RingBuf

/-! ## The buffer against the reference list and the reference queue -/

section Refinement

variable {α : Type}

open RingBuf

theorem refInsert_eq_queueInsert (N : Nat) (h1 : 1 ≤ N) (l : List α) (e : α)
    (hl : l.length ≤ N) :
    (l ++ [e]).drop ((l ++ [e]).length - N) = queueInsert N l e := by
  unfold queueInsert
  by_cases hf : l.length = N
  · rw [if_pos hf]
    have : (l ++ [e]).length - N = 1 := by simp; omega
    rw [this]
    cases l with
    | nil => simp at hf; omega
    | cons x t => rfl
  · rw [if_neg hf]
    have : (l ++ [e]).length - N = 0 := by simp; omega
    rw [this, List.drop_zero]

theorem refRun_rep (N : Nat) (h1 : 1 ≤ N) (hN : N ≤ 255) (ops : List (Op α)) :
    ∀ (s : RingBuf α) (l l' : List α), Rep N s l → Tidy s → refRun N l ops = some l' →
      Rep N (Op.run N s ops) l' ∧ Tidy (Op.run N s ops) := by
  induction ops with
  | nil =>
    intro s l l' hr ht h
    simp only [refRun, Option.some.injEq] at h
    subst h
    exact ⟨hr, ht⟩
  | cons op ops ih =>
    intro s l l' hr ht h
    cases op with
    | insert e =>
      simp only [refRun, refStep, Option.some_bind] at h
      rw [refInsert_eq_queueInsert N h1 l e hr.len_le] at h
      exact ih _ _ _ (hr.after_insert h1 hN e) (insert_tidy N s e) h
    | remove c =>
      simp only [refRun, refStep, Option.some_bind] at h
      have hd : l.drop (min c l.length) = l.drop c := by
        rcases Nat.le_total c l.length with hc | hc
        · rw [Nat.min_eq_left hc]
        · rw [Nat.min_eq_right hc, List.drop_length, List.drop_eq_nil_of_le hc]
      rw [hd] at h
      exact ih _ _ _ (hr.after_remove h1 hN c) (remove_tidy N s c) h
    | insertIfOK e => simp [refRun, refStep] at h
    | take => simp [refRun, refStep] at h

/-- Claim C1: for every capacity `N` in `[1, 255]` and every sequence of `insert` and
`remove` calls on a new buffer, `count()` is the length of the reference list and
`at(i)` is its `i`-th element for every `i < count()`, and a `remove(c)` made next
returns `min(c, length of the reference list)`.  As this holds for every sequence, it
holds after each call of a sequence. -/
theorem insert_remove_refines_list (N : Nat) (h1 : 1 ≤ N) (hN : N ≤ 255) (init : Nat → α)
    (ops : List (Op α)) (l : List α) (h : refRun N [] ops = some l) :
    (Op.run N (RingBuf.new init) ops).count N = l.length ∧
      (∀ i (hi : i < l.length), (Op.run N (RingBuf.new init) ops).at_ N i = some (l[i])) ∧
      ∀ c, ((Op.run N (RingBuf.new init) ops).remove N c).1 = min c l.length := by
  obtain ⟨hr, ht⟩ := refRun_rep N h1 hN ops _ _ _ (Rep.of_new N h1 init) (new_tidy init) h
  exact ⟨hr.count_of_tidy ht h1 hN, fun i hi => hr.at_eq hN i hi, fun c => hr.remove_returns ht h1 hN c⟩

theorem insert_remove_refines_list_witness :
    1 ≤ 2 ∧ 2 ≤ 255 ∧
      refRun 2 [] [Op.insert 5, Op.insert 6, Op.insert 7, Op.remove 1, Op.insert 8]
        = some [7, 8] ∧
      (Op.run 2 (RingBuf.new (fun _ => 0))
        [Op.insert 5, Op.insert 6, Op.insert 7, Op.remove 1, Op.insert 8]).count 2
        = [7, 8].length ∧
      (∀ i (hi : i < [7, 8].length),
        (Op.run 2 (RingBuf.new (fun _ => 0))
          [Op.insert 5, Op.insert 6, Op.insert 7, Op.remove 1, Op.insert 8]).at_ 2 i
          = some ([7, 8][i])) ∧
      ∀ c, ((Op.run 2 (RingBuf.new (fun _ => 0))
          [Op.insert 5, Op.insert 6, Op.insert 7, Op.remove 1, Op.insert 8]).remove 2 c).1
          = min c [7, 8].length :=
  ⟨by decide, by decide, by decide,
    insert_remove_refines_list 2 (by decide) (by decide) (fun _ => 0)
      [Op.insert 5, Op.insert 6, Op.insert 7, Op.remove 1, Op.insert 8] [7, 8] (by decide)⟩

/-- Claim C2, evaluated on the code: with capacity 4, insert `1, 2, 3, 4` and take
four times.  Every `take()` is made with `count() > 0` and returns the front of the
reference queue, which ends empty; the buffer ends with `empty` set, but with
`consumeOffset = 0` and `loadOffset = 4`, and `count()` returns `4`, not `0`. -/
theorem fill_drain_count :
    Op.guarded 4 (RingBuf.new (fun _ => 0))
        [Op.insert 1, Op.insert 2, Op.insert 3, Op.insert 4,
          Op.take, Op.take, Op.take, Op.take] = true ∧
      Op.takes 4 (RingBuf.new (fun _ => 0))
        [Op.insert 1, Op.insert 2, Op.insert 3, Op.insert 4,
          Op.take, Op.take, Op.take, Op.take] = [some 1, some 2, some 3, some 4] ∧
      queueRun 4 ([] : List Nat)
        [Op.insert 1, Op.insert 2, Op.insert 3, Op.insert 4,
          Op.take, Op.take, Op.take, Op.take] = some [] ∧
      (Op.run 4 (RingBuf.new (fun _ => 0))
        [Op.insert 1, Op.insert 2, Op.insert 3, Op.insert 4,
          Op.take, Op.take, Op.take, Op.take]).empty = true ∧
      (Op.run 4 (RingBuf.new (fun _ => 0))
        [Op.insert 1, Op.insert 2, Op.insert 3, Op.insert 4,
          Op.take, Op.take, Op.take, Op.take]).loadOffset = 4 ∧
      (Op.run 4 (RingBuf.new (fun _ => 0))
        [Op.insert 1, Op.insert 2, Op.insert 3, Op.insert 4,
          Op.take, Op.take, Op.take, Op.take]).consumeOffset = 0 ∧
      (Op.run 4 (RingBuf.new (fun _ => 0))
        [Op.insert 1, Op.insert 2, Op.insert 3, Op.insert 4,
          Op.take, Op.take, Op.take, Op.take]).count 4 = 4 :=
  ⟨by decide, by decide, by decide, by decide, by decide, by decide, by decide⟩

theorem queueTakes_rep (N : Nat) (h1 : 1 ≤ N) (hN : N ≤ 255) (ops : List (Op α)) :
    ∀ (s : RingBuf α) (q outs : List α), Rep N s q → queueTakes N q ops = some outs →
      Op.takes N s ops = outs.map some := by
  induction ops with
  | nil =>
    intro s q outs _ h
    simp only [queueTakes, Option.some.injEq] at h
    subst h
    rfl
  | cons op ops ih =>
    intro s q outs hr h
    cases op with
    | insert e =>
      simp only [queueTakes, queueStep, Option.some_bind] at h
      exact ih _ _ _ (hr.after_insert h1 hN e) h
    | remove c =>
      simp only [queueTakes, queueStep, Option.some_bind] at h
      have hd : q.drop (min c q.length) = q.drop c := by
        rcases Nat.le_total c q.length with hc | hc
        · rw [Nat.min_eq_left hc]
        · rw [Nat.min_eq_right hc, List.drop_length, List.drop_eq_nil_of_le hc]
      rw [hd] at h
      exact ih _ _ _ (hr.after_remove h1 hN c) h
    | insertIfOK e => simp [queueTakes, queueStep] at h
    | take =>
      cases q with
      | nil => simp [queueTakes] at h
      | cons x q' =>
        simp only [queueTakes, Option.map_eq_some'] at h
        obtain ⟨outs', h', rfl⟩ := h
        obtain ⟨hv, hr'⟩ := hr.after_take hN
        have ht := ih _ _ _ hr' h'
        show (s.take N).1 :: Op.takes N (s.take N).2 ops = _
        rw [hv, ht, List.map_cons]

/-- Claim C3: for every capacity `N` in `[1, 255]` and every sequence of `insert`,
`remove` and `take` calls on a new buffer in which each `take()` is made while the
reference queue is non-empty, the values the `take()` calls return are the front
entries of the reference queue, in order. -/
theorem takes_follow_queue (N : Nat) (h1 : 1 ≤ N) (hN : N ≤ 255) (init : Nat → α)
    (ops : List (Op α)) (outs : List α) (h : queueTakes N [] ops = some outs) :
    Op.takes N (RingBuf.new init) ops = outs.map some :=
  queueTakes_rep N h1 hN ops _ _ _ (Rep.of_new N h1 init) h

theorem takes_follow_queue_witness :
    1 ≤ 3 ∧ 3 ≤ 255 ∧
      queueTakes 3 []
        [Op.insert 1, Op.insert 2, Op.insert 3, Op.take, Op.insert 4, Op.take, Op.take,
          Op.take] = some [1, 2, 3, 4] ∧
      Op.takes 3 (RingBuf.new (fun _ => 0))
        [Op.insert 1, Op.insert 2, Op.insert 3, Op.take, Op.insert 4, Op.take, Op.take,
          Op.take]
      = [1, 2, 3, 4].map some :=
  ⟨by decide, by decide, by decide,
    takes_follow_queue 3 (by decide) (by decide) (fun _ => 0)
      [Op.insert 1, Op.insert 2, Op.insert 3, Op.take, Op.insert 4, Op.take, Op.take,
        Op.take]
      [1, 2, 3, 4] (by decide)⟩

theorem inserts_rep (N : Nat) (h1 : 1 ≤ N) (hN : N ≤ 255) (xs : List α) :
    ∀ (s : RingBuf α) (l : List α), Rep N s l →
      Rep N (Op.run N s (xs.map Op.insert)) ((l ++ xs).drop ((l ++ xs).length - N)) := by
  induction xs with
  | nil =>
    intro s l hr
    have hl := hr.len_le
    have : (l ++ []).length - N = 0 := by simp; omega
    rw [this, List.drop_zero, List.append_nil]
    exact hr
  | cons e rest ih =>
    intro s l hr
    have hl := hr.len_le
    have h := ih _ _ (hr.after_insert h1 hN e)
    have hq : ((queueInsert N l e ++ rest).drop ((queueInsert N l e ++ rest).length - N)) =
        (l ++ e :: rest).drop ((l ++ e :: rest).length - N) := by
      unfold queueInsert
      by_cases hf : l.length = N
      · rw [if_pos hf]
        cases l with
        | nil => simp at hf; omega
        | cons x t =>
          simp only [List.length_cons] at hf
          have e1 : ((x :: t).tail ++ [e] ++ rest).length - N = rest.length := by
            simp; omega
          have e2 : (x :: t ++ e :: rest).length - N = rest.length + 1 := by
            simp; omega
          rw [e1, e2]
          simp
      · rw [if_neg hf]
        simp
    rw [hq] at h
    exact h

/-- Claim C4: for every capacity `N` in `[1, 255]` and every list `xs` of length
`k > N`, after inserting the elements of `xs` in order into a new buffer, `count()` is
`N` and `at(i)` is `xs[k - N + i]` for every `i < N`. -/
theorem insert_overflow_keeps_last (N : Nat) (h1 : 1 ≤ N) (hN : N ≤ 255) (init : Nat → α)
    (xs : List α) (hk : N < xs.length) :
    (Op.run N (RingBuf.new init) (xs.map Op.insert)).count N = N ∧
      ∀ i (hi : i < N), (Op.run N (RingBuf.new init) (xs.map Op.insert)).at_ N i
        = some (xs[xs.length - N + i]) := by
  have hr := inserts_rep N h1 hN xs _ _ (Rep.of_new N h1 init)
  rw [List.nil_append] at hr
  have hlen : (xs.drop (xs.length - N)).length = N := by
    rw [List.length_drop]; omega
  constructor
  · rcases hr.count_cases hN with ⟨hc, -⟩ | ⟨h0, -⟩
    · rw [hc, hlen]
    · omega
  · intro i hi
    rw [hr.at_eq hN i (by omega), List.getElem_drop]

theorem insert_overflow_keeps_last_witness :
    1 ≤ 3 ∧ 3 ≤ 255 ∧ 3 < [1, 2, 3, 4, 5].length ∧
      (Op.run 3 (RingBuf.new (fun _ => 0)) ([1, 2, 3, 4, 5].map Op.insert)).count 3 = 3 ∧
      (Op.run 3 (RingBuf.new (fun _ => 0)) ([1, 2, 3, 4, 5].map Op.insert)).at_ 3 0 = some 3 ∧
      (Op.run 3 (RingBuf.new (fun _ => 0)) ([1, 2, 3, 4, 5].map Op.insert)).at_ 3 1 = some 4 ∧
      (Op.run 3 (RingBuf.new (fun _ => 0)) ([1, 2, 3, 4, 5].map Op.insert)).at_ 3 2 = some 5 :=
  ⟨by decide, by decide, by decide,
    (insert_overflow_keeps_last 3 (by decide) (by decide) (fun _ => 0)
      [1, 2, 3, 4, 5] (by decide)).1,
    (insert_overflow_keeps_last 3 (by decide) (by decide) (fun _ => 0)
      [1, 2, 3, 4, 5] (by decide)).2 0 (by decide),
    (insert_overflow_keeps_last 3 (by decide) (by decide) (fun _ => 0)
      [1, 2, 3, 4, 5] (by decide)).2 1 (by decide),
    (insert_overflow_keeps_last 3 (by decide) (by decide) (fun _ => 0)
      [1, 2, 3, 4, 5] (by decide)).2 2 (by decide)⟩

end Refinement

/-! ## Reachable states -/

section Reachable

variable {α : Type}

open RingBuf

theorem remove_inRange (N : Nat) (hN : N ≤ 255) (s : RingBuf α) (c : Nat)
    (h : InRange N s) : InRange N (s.remove N c).2 := by
  have hco := remove_consumeOffset N s c hN h
  have hlo := remove_loadOffset N s c
  have ha := count_le N s hN h
  have hb := count_le N { s with empty := true } hN h
  obtain ⟨h3, h4⟩ := h
  have hlt : (s.remove N c).2.consumeOffset < N := by
    rw [hco]; unfold wrap; split_ifs <;> omega
  refine ⟨hlt, ?_⟩
  rw [hlo]
  split_ifs <;> omega

theorem take_inRange (N : Nat) (hN : N ≤ 255) (s : RingBuf α) (h : InRange N s) :
    InRange N (s.take N).2 := by
  have hco := take_consumeOffset N s hN h
  have hlo := take_loadOffset N s
  obtain ⟨h3, h4⟩ := h
  refine ⟨?_, ?_⟩
  · rw [hco]; unfold wrap; split_ifs <;> omega
  · rw [hlo]; exact h4

theorem store_inRange (N : Nat) (h1 : 1 ≤ N) (hN : N ≤ 255) (s : RingBuf α) (e : α)
    (h : InRange N s) : InRange N (store N s e) := by
  obtain ⟨h3, h4⟩ := h
  refine ⟨h3, ?_⟩
  show ((if s.loadOffset ≥ N then 0 else s.loadOffset) + 1) % 256 ≤ N
  split_ifs <;> omega

theorem insert_inRange (N : Nat) (h1 : 1 ≤ N) (hN : N ≤ 255) (s : RingBuf α) (e : α)
    (h : InRange N s) : InRange N (s.insert N e) := by
  rw [insert_eq_store]
  split_ifs
  · exact store_inRange N h1 hN _ e (remove_inRange N hN s 1 h)
  · exact store_inRange N h1 hN _ e h

theorem insertIfOK_inRange (N : Nat) (h1 : 1 ≤ N) (hN : N ≤ 255) (s : RingBuf α) (e : α)
    (h : InRange N s) : InRange N (s.insertIfOK N e).2 := by
  unfold insertIfOK
  simp only []
  split_ifs
  · exact insert_inRange N h1 hN s e h
  · exact h

theorem run_inRange (N : Nat) (h1 : 1 ≤ N) (hN : N ≤ 255) (ops : List (Op α)) :
    ∀ s : RingBuf α, InRange N s → InRange N (Op.run N s ops) := by
  induction ops with
  | nil => intro s h; exact h
  | cons op ops ih =>
    intro s h
    cases op with
    | insert e => exact ih _ (insert_inRange N h1 hN s e h)
    | insertIfOK e => exact ih _ (insertIfOK_inRange N h1 hN s e h)
    | remove c => exact ih _ (remove_inRange N hN s c h)
    | take => exact ih _ (take_inRange N hN s h)

theorem new_inRange (N : Nat) (h1 : 1 ≤ N) (init : Nat → α) : InRange N (RingBuf.new init) :=
  ⟨h1, Nat.zero_le N⟩

theorem remove_of_count_le (N : Nat) (s : RingBuf α) (c : Nat) (hc : s.count N ≤ c) :
    (s.remove N c).1 = s.count N ∧ (s.remove N c).2.empty = true ∧
      (s.remove N c).2.loadOffset = (s.remove N c).2.consumeOffset ∧
      (s.remove N c).2.count N = 0 := by
  have he : (s.remove N c).2.empty = true := by
    rw [remove_empty]; simp [hc]
  have hlo := remove_tidy N s c he
  have hz : (s.remove N c).2.count N = 0 := by
    unfold count
    simp only [hlo, he]
    simp
  have hlt := count_lt_256 N s
  refine ⟨?_, he, hlo, hz⟩
  show ((((s.count N : Nat) : Int) - ((s.remove N c).2.count N : Int)) % 256).toNat = _
  rw [hz]
  omega

/-- Claim C5, evaluated on the code: with capacity 1, insert `7` and take it, a
`take()` made with `count() > 0`.  Then `loadOffset = 1`, `consumeOffset = 0` and
`empty` is set, so `d = 0` and the derived count of the data model is `0`, but
`count()` returns `1`. -/
theorem count_differs_from_model :
    Op.guarded 1 (RingBuf.new (fun _ => 0)) [Op.insert 7, Op.take] = true ∧
      (Op.run 1 (RingBuf.new (fun _ => 0)) [Op.insert 7, Op.take]).loadOffset = 1 ∧
      (Op.run 1 (RingBuf.new (fun _ => 0)) [Op.insert 7, Op.take]).consumeOffset = 0 ∧
      (Op.run 1 (RingBuf.new (fun _ => 0)) [Op.insert 7, Op.take]).empty = true ∧
      modelCount 1 (Op.run 1 (RingBuf.new (fun _ => 0)) [Op.insert 7, Op.take]) = 0 ∧
      (Op.run 1 (RingBuf.new (fun _ => 0)) [Op.insert 7, Op.take]).count 1 = 1 :=
  ⟨by decide, by decide, by decide, by decide, by decide, by decide⟩

/-- Claim C6, evaluated on the code: with capacity 2, insert `1, 2` and take twice,
each `take()` made with `count() > 0`.  The `empty` flag is then set, but `count()`
returns `2`. -/
theorem empty_set_with_count_two :
    Op.guarded 2 (RingBuf.new (fun _ => 0))
        [Op.insert 1, Op.insert 2, Op.take, Op.take] = true ∧
      (Op.run 2 (RingBuf.new (fun _ => 0))
        [Op.insert 1, Op.insert 2, Op.take, Op.take]).empty = true ∧
      (Op.run 2 (RingBuf.new (fun _ => 0))
        [Op.insert 1, Op.insert 2, Op.take, Op.take]).count 2 = 2 :=
  ⟨by decide, by decide, by decide⟩

/-- Claim C7: in every state reached from a new buffer by any sequence of `insert`,
`insertIfOK`, `take` and `remove` calls, with or without the precondition of `take`,
`count() ≤ N` and `count() + available() = N` as natural numbers. -/
theorem count_add_available (N : Nat) (h1 : 1 ≤ N) (hN : N ≤ 255) (init : Nat → α)
    (ops : List (Op α)) :
    (Op.run N (RingBuf.new init) ops).count N ≤ N ∧
      (Op.run N (RingBuf.new init) ops).count N
        + (Op.run N (RingBuf.new init) ops).available N = N := by
  have hr := run_inRange N h1 hN ops _ (new_inRange N h1 init)
  have hc := count_le N _ hN hr
  have ha := available_eq N _ hN hr
  exact ⟨hc, by omega⟩

theorem count_add_available_witness :
    1 ≤ 3 ∧ 3 ≤ 255 ∧
      (Op.run 3 (RingBuf.new (fun _ => 0))
        [Op.take, Op.insert 1, Op.insertIfOK 2, Op.remove 5, Op.take]).count 3 ≤ 3 ∧
      (Op.run 3 (RingBuf.new (fun _ => 0))
        [Op.take, Op.insert 1, Op.insertIfOK 2, Op.remove 5, Op.take]).count 3
        + (Op.run 3 (RingBuf.new (fun _ => 0))
          [Op.take, Op.insert 1, Op.insertIfOK 2, Op.remove 5, Op.take]).available 3 = 3 :=
  ⟨by decide, by decide,
    count_add_available 3 (by decide) (by decide) (fun _ => 0)
      [Op.take, Op.insert 1, Op.insertIfOK 2, Op.remove 5, Op.take]⟩

/-- Claim C8, evaluated on the code: with capacity 3, insert `1, 2, 3` and take three
times, each `take()` made with `count() > 0`.  Then `count()` returns `3`, and
`remove(1)` returns `3` and leaves `count() = 0`, where `min(1, 3) = 1` and
`3 - 1 = 2`. -/
theorem remove_one_returns_three :
    Op.guarded 3 (RingBuf.new (fun _ => 0))
        [Op.insert 1, Op.insert 2, Op.insert 3, Op.take, Op.take, Op.take] = true ∧
      (Op.run 3 (RingBuf.new (fun _ => 0))
        [Op.insert 1, Op.insert 2, Op.insert 3, Op.take, Op.take, Op.take]).count 3 = 3 ∧
      ((Op.run 3 (RingBuf.new (fun _ => 0))
        [Op.insert 1, Op.insert 2, Op.insert 3, Op.take, Op.take, Op.take]).remove 3 1).1
        = 3 ∧
      ((Op.run 3 (RingBuf.new (fun _ => 0))
        [Op.insert 1, Op.insert 2, Op.insert 3, Op.take, Op.take, Op.take]).remove 3 1).2.count 3
        = 0 :=
  ⟨by decide, by decide, by decide, by decide⟩

/-- Claim C9: in every state reached from a new buffer by any sequence of `insert`,
`insertIfOK`, `take` and `remove` calls, and for every `c ≥ count()`, `remove(c)`
returns the prior `count()` and leaves `empty` set, `loadOffset = consumeOffset` and
`count() = 0`. -/
theorem remove_all_empties (N : Nat) (init : Nat → α) (ops : List (Op α)) (c : Nat)
    (hc : (Op.run N (RingBuf.new init) ops).count N ≤ c) :
    ((Op.run N (RingBuf.new init) ops).remove N c).1
        = (Op.run N (RingBuf.new init) ops).count N ∧
      ((Op.run N (RingBuf.new init) ops).remove N c).2.empty = true ∧
      ((Op.run N (RingBuf.new init) ops).remove N c).2.loadOffset
        = ((Op.run N (RingBuf.new init) ops).remove N c).2.consumeOffset ∧
      ((Op.run N (RingBuf.new init) ops).remove N c).2.count N = 0 :=
  remove_of_count_le N _ c hc

theorem remove_all_empties_witness :
    (Op.run 5 (RingBuf.new (fun _ => 0)) [Op.insert 120, Op.insert 121]).count 5 ≤ 10 ∧
      ((Op.run 5 (RingBuf.new (fun _ => 0)) [Op.insert 120, Op.insert 121]).remove 5 10).1
        = (Op.run 5 (RingBuf.new (fun _ => 0)) [Op.insert 120, Op.insert 121]).count 5 ∧
      ((Op.run 5 (RingBuf.new (fun _ => 0))
        [Op.insert 120, Op.insert 121]).remove 5 10).2.empty = true ∧
      ((Op.run 5 (RingBuf.new (fun _ => 0))
        [Op.insert 120, Op.insert 121]).remove 5 10).2.loadOffset
        = ((Op.run 5 (RingBuf.new (fun _ => 0))
          [Op.insert 120, Op.insert 121]).remove 5 10).2.consumeOffset ∧
      ((Op.run 5 (RingBuf.new (fun _ => 0))
        [Op.insert 120, Op.insert 121]).remove 5 10).2.count 5 = 0 :=
  ⟨by decide, remove_all_empties 5 (fun _ => 0) [Op.insert 120, Op.insert 121] 10
    (by decide)⟩

/-- Claim C10: in every state reached from a new buffer, and for every entry `e`,
`insertIfOK(e)` returns true exactly when `available() > 0` before the call; when it
returns false the state is unchanged (offsets, `empty` and every storage slot); when
it returns true the resulting state is the state `insert(e)` produces. -/
theorem insertIfOK_fidelity (N : Nat) (init : Nat → α) (ops : List (Op α)) (e : α) :
    (((Op.run N (RingBuf.new init) ops).insertIfOK N e).1 = true
        ↔ 0 < (Op.run N (RingBuf.new init) ops).available N) ∧
      (((Op.run N (RingBuf.new init) ops).insertIfOK N e).1 = false →
        ((Op.run N (RingBuf.new init) ops).insertIfOK N e).2
          = Op.run N (RingBuf.new init) ops) ∧
      (((Op.run N (RingBuf.new init) ops).insertIfOK N e).1 = true →
        ((Op.run N (RingBuf.new init) ops).insertIfOK N e).2
          = (Op.run N (RingBuf.new init) ops).insert N e) := by
  generalize Op.run N (RingBuf.new init) ops = s
  unfold insertIfOK
  simp only []
  refine ⟨?_, ?_, ?_⟩
  · rw [decide_eq_true_eq]; omega
  · intro h; rw [if_neg (by simp [h])]
  · intro h; rw [if_pos h]

end Reachable

/-! ## Reads, and calls outside their precondition -/

section Reads

variable {α : Type}

open RingBuf

theorem atOffset_eq_wrap (N : Nat) (hN : N ≤ 255) (s : RingBuf α) (h : InRange N s)
    (i : Nat) (hi : i ≤ N) :
    s.atOffset N i = wrap N (s.consumeOffset + i) ∧ s.atOffset N i < N := by
  obtain ⟨h3, h4⟩ := h
  unfold atOffset wrap
  simp only []
  constructor <;> split_ifs <;> omega

theorem run_takes (N : Nat) (hN : N ≤ 255) (k : Nat) :
    ∀ s : RingBuf α, InRange N s → k ≤ N →
      (Op.run N s (List.replicate k Op.take)).consumeOffset = wrap N (s.consumeOffset + k) ∧
      (Op.run N s (List.replicate k Op.take)).buf = s.buf := by
  induction k with
  | zero =>
    intro s h _
    obtain ⟨h3, h4⟩ := h
    refine ⟨?_, rfl⟩
    show s.consumeOffset = wrap N (s.consumeOffset + 0)
    unfold wrap
    rw [if_neg (by omega)]
    rfl
  | succ k ih =>
    intro s h hk
    have hco := take_consumeOffset N s hN h
    obtain ⟨h1, h2⟩ := ih (s.take N).2 (take_inRange N hN s h) (by omega)
    obtain ⟨h3, h4⟩ := h
    refine ⟨?_, ?_⟩
    · show (Op.run N (s.take N).2 (List.replicate k Op.take)).consumeOffset = _
      rw [h1, hco]
      unfold wrap
      split_ifs <;> omega
    · show (Op.run N (s.take N).2 (List.replicate k Op.take)).buf = _
      rw [h2, take_buf]

theorem at_eq_take_after (N : Nat) (hN : N ≤ 255) (s : RingBuf α) (h : InRange N s)
    (i : Nat) (hi : i < s.count N) :
    s.atOffset N i < N ∧
      s.at_ N i = ((Op.run N s (List.replicate i Op.take)).take N).1 := by
  have hc := count_le N s hN h
  obtain ⟨ha, hlt⟩ := atOffset_eq_wrap N hN s h i (by omega)
  obtain ⟨h1, h2⟩ := run_takes N hN i s h (by omega)
  refine ⟨hlt, ?_⟩
  rw [take_fst]
  unfold at_ slot
  rw [h1, h2, ha, Nat.mod_eq_of_lt (by omega)]

/-- Claim C11: in every state reached from a new buffer by any sequence of `insert`,
`insertIfOK`, `take` and `remove` calls, and for every `i < count()`, `at(i)` reads a
slot inside the storage and returns what the last of `i + 1` successive `take()`
calls made from that state returns. -/
theorem at_is_later_take (N : Nat) (h1 : 1 ≤ N) (hN : N ≤ 255) (init : Nat → α)
    (ops : List (Op α)) (i : Nat) (hi : i < (Op.run N (RingBuf.new init) ops).count N) :
    (Op.run N (RingBuf.new init) ops).atOffset N i < N ∧
      (Op.run N (RingBuf.new init) ops).at_ N i
        = ((Op.run N (Op.run N (RingBuf.new init) ops) (List.replicate i Op.take)).take N).1 :=
  at_eq_take_after N hN _ (run_inRange N h1 hN ops _ (new_inRange N h1 init)) i hi

theorem at_is_later_take_witness :
    1 ≤ 3 ∧ 3 ≤ 255 ∧
      1 < (Op.run 3 (RingBuf.new (fun _ => 0))
        [Op.insert 1, Op.insert 2, Op.insert 3, Op.insert 4]).count 3 ∧
      (Op.run 3 (RingBuf.new (fun _ => 0))
        [Op.insert 1, Op.insert 2, Op.insert 3, Op.insert 4]).atOffset 3 1 < 3 ∧
      (Op.run 3 (RingBuf.new (fun _ => 0))
        [Op.insert 1, Op.insert 2, Op.insert 3, Op.insert 4]).at_ 3 1
        = ((Op.run 3 (Op.run 3 (RingBuf.new (fun _ => 0))
            [Op.insert 1, Op.insert 2, Op.insert 3, Op.insert 4])
            (List.replicate 1 Op.take)).take 3).1 :=
  ⟨by decide, by decide, by decide,
    at_is_later_take 3 (by decide) (by decide) (fun _ => 0)
      [Op.insert 1, Op.insert 2, Op.insert 3, Op.insert 4] 1 (by decide)⟩

/-- Claim C12, evaluated on the code: with capacity 2, `take()` on a new buffer, for
which `count() = 0`.  The call advances `consumeOffset` from `0` to `1`; `loadOffset`
and `empty` stay, and `count()` then returns `1` with `empty` still set. -/
theorem take_on_new_moves_consumeOffset :
    (RingBuf.new (fun _ => 0) : RingBuf Nat).count 2 = 0 ∧
      (RingBuf.new (fun _ => 0) : RingBuf Nat).consumeOffset = 0 ∧
      ((RingBuf.new (fun _ => 0) : RingBuf Nat).take 2).2.consumeOffset = 1 ∧
      ((RingBuf.new (fun _ => 0) : RingBuf Nat).take 2).2.loadOffset = 0 ∧
      ((RingBuf.new (fun _ => 0) : RingBuf Nat).take 2).2.empty = true ∧
      ((RingBuf.new (fun _ => 0) : RingBuf Nat).take 2).2.count 2 = 1 :=
  ⟨by decide, by decide, by decide, by decide, by decide, by decide⟩

/-- Claim C13, evaluated on the code: with capacity 1 and natural-number entries,
insert `5` and `remove(1)`.  Then `count() = 0`, and `peek()`, `take()` and `at(0)`
all return the stale entry `5`, not `0`. -/
theorem stale_entry_when_unavailable :
    (Op.run 1 (RingBuf.new (fun _ => 0)) [Op.insert 5, Op.remove 1]).count 1 = 0 ∧
      (Op.run 1 (RingBuf.new (fun _ => 0)) [Op.insert 5, Op.remove 1]).peek 1 = some 5 ∧
      ((Op.run 1 (RingBuf.new (fun _ => 0)) [Op.insert 5, Op.remove 1]).take 1).1
        = some 5 ∧
      (Op.run 1 (RingBuf.new (fun _ => 0)) [Op.insert 5, Op.remove 1]).at_ 1 0 = some 5 :=
  ⟨by decide, by decide, by decide, by decide⟩

/-- Claim C14, evaluated on the code: with capacity 1 on a new buffer, `at(2)` reads
storage index `1`, which is outside `[0, 1)` and is not `(0 + 2) mod 1 = 0`; the read is
out of bounds, where the docstring of `at` says it returns `0` if unavailable. -/
theorem at_two_reads_outside :
    (RingBuf.new (fun _ => 0) : RingBuf Nat).atOffset 1 2 = 1 ∧
      ((RingBuf.new (fun _ => 0) : RingBuf Nat).consumeOffset + 2) % 1 = 0 ∧
      ¬ (RingBuf.new (fun _ => 0) : RingBuf Nat).atOffset 1 2 < 1 ∧
      (RingBuf.new (fun _ => 0) : RingBuf Nat).at_ 1 2 = none :=
  ⟨by decide, by decide, by decide, by decide⟩

theorem wrap_eq_mod (N x : Nat) (h : x < 2 * N) : wrap N x = x % N := by
  unfold wrap
  split_ifs with hx
  · rw [Nat.mod_eq_sub_mod hx, Nat.mod_eq_of_lt (by omega)]
  · rw [Nat.mod_eq_of_lt (by omega)]

/-- Claim C15 as stated fails: with capacity 1, `atAbs(2)` reads storage index `1`,
outside the storage, and does not return slot `2 mod 1 = 0`. -/
theorem atAbs_two_reads_outside :
    atAbsOffset 1 2 = 1 ∧
      (RingBuf.new (fun _ => 7) : RingBuf Nat).atAbs 1 2 = none ∧
      (RingBuf.new (fun _ => 7) : RingBuf Nat).atAbs 1 2
        ≠ some ((RingBuf.new (fun _ => 7) : RingBuf Nat).buf (2 % 1)) :=
  ⟨by decide, by decide, by decide⟩

/-- Claim C15, amended: for every capacity `N` in `[1, 255]`, every buffer state and
every `idx < 2 * N`, `atAbs(idx)` returns the storage slot `idx mod N`. -/
theorem atAbs_below_twice (N : Nat) (hN : N ≤ 255) (s : RingBuf α) (idx : Nat)
    (h : idx < 2 * N) : s.atAbs N idx = some (s.buf (idx % N)) := by
  rw [← wrap_eq_mod N idx h]
  unfold atAbs slot atAbsOffset wrap
  simp only []
  split_ifs <;> first | omega | rfl | (congr 2; omega)

theorem atAbs_below_twice_witness :
    3 ≤ 255 ∧ 4 < 2 * 3 ∧
      (Op.run 3 (RingBuf.new (fun _ => 0)) [Op.insert 1, Op.insert 2]).atAbs 3 4
        = some ((Op.run 3 (RingBuf.new (fun _ => 0)) [Op.insert 1, Op.insert 2]).buf (4 % 3)) :=
  ⟨by decide, by decide,
    atAbs_below_twice 3 (by decide) (Op.run 3 (RingBuf.new (fun _ => 0))
      [Op.insert 1, Op.insert 2]) 4 (by decide)⟩

theorem count_zero_iff (N : Nat) (h1 : 1 ≤ N) (hN : N ≤ 255) (s : RingBuf α)
    (h : InRange N s) :
    s.count N = 0 ↔ s.loadOffset = s.consumeOffset ∧ s.empty = true := by
  have hc := count_eq N s hN h
  obtain ⟨h3, h4⟩ := h
  rcases Bool.eq_false_or_eq_true s.empty with he | he
  · simp only [he, if_true] at hc
    simp only [he, and_true]
    split_ifs at hc <;> omega
  · simp only [he, Bool.false_eq_true, if_false] at hc
    simp only [he, Bool.false_eq_true, and_false, iff_false]
    split_ifs at hc <;> omega

theorem remove_of_count_zero (N : Nat) (h1 : 1 ≤ N) (hN : N ≤ 255) (s : RingBuf α)
    (h : InRange N s) (c : Nat) (h0 : s.count N = 0) :
    (s.remove N c).1 = 0 ∧ (s.remove N c).2.consumeOffset = s.consumeOffset ∧
      (s.remove N c).2.loadOffset = s.loadOffset ∧ (s.remove N c).2.empty = s.empty ∧
      (s.remove N c).2.buf = s.buf := by
  obtain ⟨hlo, he⟩ := (count_zero_iff N h1 hN s h).mp h0
  obtain ⟨hr, he', hlo', -⟩ := remove_of_count_le N s c (by omega)
  have hco := remove_consumeOffset N s c hN h
  have hs := count_setEmpty N s hN h
  rw [if_pos (by omega), hs, if_pos hlo] at hco
  have hco' : (s.remove N c).2.consumeOffset = s.consumeOffset := by
    rw [hco]
    unfold wrap
    have := h.1
    rw [if_neg (by omega)]
    omega
  exact ⟨by omega, hco', by omega, by rw [he', he], remove_buf N s c⟩

/-- Claim C16: in every state reached from a new buffer with `count() = 0`, and for
every `c`, `remove(c)` returns `0` and leaves `consumeOffset`, `loadOffset`, `empty`
and the storage unchanged. -/
theorem remove_on_empty_is_noop (N : Nat) (h1 : 1 ≤ N) (hN : N ≤ 255) (init : Nat → α)
    (ops : List (Op α)) (c : Nat) (h0 : (Op.run N (RingBuf.new init) ops).count N = 0) :
    ((Op.run N (RingBuf.new init) ops).remove N c).1 = 0 ∧
      ((Op.run N (RingBuf.new init) ops).remove N c).2.consumeOffset
        = (Op.run N (RingBuf.new init) ops).consumeOffset ∧
      ((Op.run N (RingBuf.new init) ops).remove N c).2.loadOffset
        = (Op.run N (RingBuf.new init) ops).loadOffset ∧
      ((Op.run N (RingBuf.new init) ops).remove N c).2.empty
        = (Op.run N (RingBuf.new init) ops).empty ∧
      ((Op.run N (RingBuf.new init) ops).remove N c).2.buf
        = (Op.run N (RingBuf.new init) ops).buf :=
  remove_of_count_zero N h1 hN _ (run_inRange N h1 hN ops _ (new_inRange N h1 init)) c h0

theorem remove_on_empty_is_noop_witness :
    1 ≤ 3 ∧ 3 ≤ 255 ∧
      (Op.run 3 (RingBuf.new (fun _ => 0)) [Op.insert 1, Op.insert 2, Op.remove 9]).count 3
        = 0 ∧
      ((Op.run 3 (RingBuf.new (fun _ => 0))
        [Op.insert 1, Op.insert 2, Op.remove 9]).remove 3 200).1 = 0 ∧
      ((Op.run 3 (RingBuf.new (fun _ => 0))
        [Op.insert 1, Op.insert 2, Op.remove 9]).remove 3 200).2.consumeOffset
        = (Op.run 3 (RingBuf.new (fun _ => 0))
          [Op.insert 1, Op.insert 2, Op.remove 9]).consumeOffset ∧
      ((Op.run 3 (RingBuf.new (fun _ => 0))
        [Op.insert 1, Op.insert 2, Op.remove 9]).remove 3 200).2.loadOffset
        = (Op.run 3 (RingBuf.new (fun _ => 0))
          [Op.insert 1, Op.insert 2, Op.remove 9]).loadOffset ∧
      ((Op.run 3 (RingBuf.new (fun _ => 0))
        [Op.insert 1, Op.insert 2, Op.remove 9]).remove 3 200).2.empty
        = (Op.run 3 (RingBuf.new (fun _ => 0))
          [Op.insert 1, Op.insert 2, Op.remove 9]).empty ∧
      ((Op.run 3 (RingBuf.new (fun _ => 0))
        [Op.insert 1, Op.insert 2, Op.remove 9]).remove 3 200).2.buf
        = (Op.run 3 (RingBuf.new (fun _ => 0))
          [Op.insert 1, Op.insert 2, Op.remove 9]).buf :=
  ⟨by decide, by decide, by decide,
    remove_on_empty_is_noop 3 (by decide) (by decide) (fun _ => 0)
      [Op.insert 1, Op.insert 2, Op.remove 9] 200 (by decide)⟩

theorem front_reads (N : Nat) (hN : N ≤ 255) (s : RingBuf α) (h : InRange N s) :
    s.peek N = some (s.buf s.consumeOffset) ∧ s.at_ N 0 = some (s.buf s.consumeOffset) ∧
      (s.take N).1 = some (s.buf s.consumeOffset) := by
  obtain ⟨h3, h4⟩ := h
  refine ⟨?_, ?_, ?_⟩
  · unfold peek slot
    rw [if_pos h3]
  · obtain ⟨ha, hlt⟩ := atOffset_eq_wrap N hN s ⟨h3, h4⟩ 0 (Nat.zero_le N)
    unfold at_ slot
    rw [if_pos hlt, ha]
    unfold wrap
    rw [if_neg (by omega)]
    rfl
  · rw [take_fst]
    unfold slot
    rw [Nat.mod_eq_of_lt (by omega), if_pos h3]

/-- Claim C17: in every state reached from a new buffer, in particular in every
one with `count() > 0`, `peek()` equals `at(0)`, and both equal the value the next
`take()` returns. -/
theorem peek_at_zero_take (N : Nat) (h1 : 1 ≤ N) (hN : N ≤ 255) (init : Nat → α)
    (ops : List (Op α)) :
    (Op.run N (RingBuf.new init) ops).peek N = (Op.run N (RingBuf.new init) ops).at_ N 0 ∧
      (Op.run N (RingBuf.new init) ops).peek N
        = ((Op.run N (RingBuf.new init) ops).take N).1 := by
  obtain ⟨hp, ha, ht⟩ :=
    front_reads N hN _ (run_inRange N h1 hN ops _ (new_inRange N h1 init))
  rw [hp, ha, ht]
  exact ⟨rfl, rfl⟩

theorem peek_at_zero_take_witness :
    1 ≤ 2 ∧ 2 ≤ 255 ∧
      0 < (Op.run 2 (RingBuf.new (fun _ => 0))
        [Op.insert 1, Op.insert 2, Op.insert 3]).count 2 ∧
      (Op.run 2 (RingBuf.new (fun _ => 0)) [Op.insert 1, Op.insert 2, Op.insert 3]).peek 2
        = (Op.run 2 (RingBuf.new (fun _ => 0))
          [Op.insert 1, Op.insert 2, Op.insert 3]).at_ 2 0 ∧
      (Op.run 2 (RingBuf.new (fun _ => 0)) [Op.insert 1, Op.insert 2, Op.insert 3]).peek 2
        = ((Op.run 2 (RingBuf.new (fun _ => 0))
          [Op.insert 1, Op.insert 2, Op.insert 3]).take 2).1 :=
  ⟨by decide, by decide, by decide,
    peek_at_zero_take 2 (by decide) (by decide) (fun _ => 0)
      [Op.insert 1, Op.insert 2, Op.insert 3]⟩

/-- Claim C18: in every state reached from a new buffer by any sequence of `insert`,
`insertIfOK`, `take` and `remove` calls, with or without their preconditions,
`consumeOffset < N` and `loadOffset ≤ N`; so `peek()` and `take()` read the storage
slot `consumeOffset`, which is inside `[0, N)`, also on an empty buffer. -/
theorem offsets_in_range (N : Nat) (h1 : 1 ≤ N) (hN : N ≤ 255) (init : Nat → α)
    (ops : List (Op α)) :
    (Op.run N (RingBuf.new init) ops).consumeOffset < N ∧
      (Op.run N (RingBuf.new init) ops).loadOffset ≤ N ∧
      (Op.run N (RingBuf.new init) ops).peek N
        = some ((Op.run N (RingBuf.new init) ops).buf
            (Op.run N (RingBuf.new init) ops).consumeOffset) ∧
      ((Op.run N (RingBuf.new init) ops).take N).1
        = some ((Op.run N (RingBuf.new init) ops).buf
            (Op.run N (RingBuf.new init) ops).consumeOffset) := by
  have hr := run_inRange N h1 hN ops _ (new_inRange N h1 init)
  obtain ⟨hp, -, ht⟩ := front_reads N hN _ hr
  exact ⟨hr.1, hr.2, hp, ht⟩

theorem offsets_in_range_witness :
    1 ≤ 255 ∧ 255 ≤ 255 ∧
      (Op.run 255 (RingBuf.new (fun _ => 0))
        [Op.take, Op.insert 1, Op.remove 255, Op.take]).consumeOffset < 255 ∧
      (Op.run 255 (RingBuf.new (fun _ => 0))
        [Op.take, Op.insert 1, Op.remove 255, Op.take]).loadOffset ≤ 255 ∧
      (Op.run 255 (RingBuf.new (fun _ => 0))
        [Op.take, Op.insert 1, Op.remove 255, Op.take]).peek 255
        = some ((Op.run 255 (RingBuf.new (fun _ => 0))
            [Op.take, Op.insert 1, Op.remove 255, Op.take]).buf
            (Op.run 255 (RingBuf.new (fun _ => 0))
              [Op.take, Op.insert 1, Op.remove 255, Op.take]).consumeOffset) ∧
      ((Op.run 255 (RingBuf.new (fun _ => 0))
        [Op.take, Op.insert 1, Op.remove 255, Op.take]).take 255).1
        = some ((Op.run 255 (RingBuf.new (fun _ => 0))
            [Op.take, Op.insert 1, Op.remove 255, Op.take]).buf
            (Op.run 255 (RingBuf.new (fun _ => 0))
              [Op.take, Op.insert 1, Op.remove 255, Op.take]).consumeOffset) :=
  ⟨by decide, by decide,
    offsets_in_range 255 (by decide) (by decide) (fun _ => 0)
      [Op.take, Op.insert 1, Op.remove 255, Op.take]⟩

theorem store_last (N : Nat) (h1 : 1 ≤ N) (hN : N ≤ 255) (s : RingBuf α)
    (h : InRange N s) (e : α) :
    (store N s e).empty = false ∧ 1 ≤ (store N s e).count N ∧
      1 ≤ (store N s e).loadOffset ∧ (store N s e).loadOffset ≤ N ∧
      (store N s e).at_ N ((store N s e).count N - 1) = some e := by
  have hr := store_inRange N h1 hN s e h
  have hc := count_eq N _ hN hr
  have hcl := count_le N _ hN hr
  obtain ⟨ha, hlt⟩ := atOffset_eq_wrap N hN _ hr ((store N s e).count N - 1) (by omega)
  obtain ⟨h3, h4⟩ := h
  have he : (store N s e).empty = false := rfl
  have hco : (store N s e).consumeOffset = s.consumeOffset := rfl
  have hlo : (store N s e).loadOffset
      = (if s.loadOffset ≥ N then 0 else s.loadOffset) + 1 := by
    show ((if s.loadOffset ≥ N then 0 else s.loadOffset) + 1) % 256 = _
    split_ifs <;> omega
  have hbuf : (store N s e).buf
      = Function.update s.buf (if s.loadOffset ≥ N then 0 else s.loadOffset) e := rfl
  have hl0 : (if s.loadOffset ≥ N then 0 else s.loadOffset) < N := by
    split_ifs <;> omega
  rw [he, hco, hlo] at hc
  simp only [Bool.false_eq_true, if_false] at hc
  have hc1 : 1 ≤ (store N s e).count N := by
    rw [hc]; split_ifs <;> omega
  have hidx : (store N s e).atOffset N ((store N s e).count N - 1)
      = (if s.loadOffset ≥ N then 0 else s.loadOffset) := by
    rw [ha, hco, hc]
    unfold wrap
    split_ifs <;> omega
  refine ⟨he, hc1, by omega, by omega, ?_⟩
  unfold at_ slot
  rw [hidx, if_pos hl0, hbuf, Function.update_same]

/-- Claim C19: for every state with `consumeOffset < N` and `loadOffset ≤ N` (so for
every reachable state) and every entry `e`, after `insert(e)`: `empty` is false,
`count() ≥ 1`, `loadOffset` is in `[1, N]`, and `at(count() - 1)` is `e`. -/
theorem insert_is_last_entry (N : Nat) (h1 : 1 ≤ N) (hN : N ≤ 255) (s : RingBuf α)
    (hco : s.consumeOffset < N) (hlo : s.loadOffset ≤ N) (e : α) :
    (s.insert N e).empty = false ∧ 1 ≤ (s.insert N e).count N ∧
      1 ≤ (s.insert N e).loadOffset ∧ (s.insert N e).loadOffset ≤ N ∧
      (s.insert N e).at_ N ((s.insert N e).count N - 1) = some e := by
  rw [insert_eq_store]
  split_ifs
  · exact store_last N h1 hN _ (remove_inRange N hN s 1 ⟨hco, hlo⟩) e
  · exact store_last N h1 hN _ ⟨hco, hlo⟩ e

theorem insert_is_last_entry_witness :
    1 ≤ 3 ∧ 3 ≤ 255 ∧
      (Op.run 3 (RingBuf.new (fun _ => 0))
        [Op.insert 1, Op.insert 2, Op.insert 3, Op.take]).consumeOffset < 3 ∧
      (Op.run 3 (RingBuf.new (fun _ => 0))
        [Op.insert 1, Op.insert 2, Op.insert 3, Op.take]).loadOffset ≤ 3 ∧
      ((Op.run 3 (RingBuf.new (fun _ => 0))
        [Op.insert 1, Op.insert 2, Op.insert 3, Op.take]).insert 3 9).empty = false ∧
      1 ≤ ((Op.run 3 (RingBuf.new (fun _ => 0))
        [Op.insert 1, Op.insert 2, Op.insert 3, Op.take]).insert 3 9).count 3 ∧
      1 ≤ ((Op.run 3 (RingBuf.new (fun _ => 0))
        [Op.insert 1, Op.insert 2, Op.insert 3, Op.take]).insert 3 9).loadOffset ∧
      ((Op.run 3 (RingBuf.new (fun _ => 0))
        [Op.insert 1, Op.insert 2, Op.insert 3, Op.take]).insert 3 9).loadOffset ≤ 3 ∧
      ((Op.run 3 (RingBuf.new (fun _ => 0))
        [Op.insert 1, Op.insert 2, Op.insert 3, Op.take]).insert 3 9).at_ 3
          (((Op.run 3 (RingBuf.new (fun _ => 0))
            [Op.insert 1, Op.insert 2, Op.insert 3, Op.take]).insert 3 9).count 3 - 1)
        = some 9 :=
  ⟨by decide, by decide, by decide, by decide,
    insert_is_last_entry 3 (by decide) (by decide)
      (Op.run 3 (RingBuf.new (fun _ => 0)) [Op.insert 1, Op.insert 2, Op.insert 3, Op.take])
      (by decide) (by decide) 9⟩

theorem insertIfOK_tidy (N : Nat) (s : RingBuf α) (e : α) (h : Tidy s) :
    Tidy (s.insertIfOK N e).2 := by
  unfold insertIfOK
  simp only []
  split_ifs
  · exact insert_tidy N s e
  · exact h

theorem run_tidy (N : Nat) (ops : List (Op α)) :
    ∀ s : RingBuf α, Tidy s → Op.noTake ops = true → Tidy (Op.run N s ops) := by
  induction ops with
  | nil => intro s h _; exact h
  | cons op ops ih =>
    intro s h hn
    cases op with
    | insert e => exact ih _ (insert_tidy N s e) hn
    | insertIfOK e => exact ih _ (insertIfOK_tidy N s e h) hn
    | remove c => exact ih _ (remove_tidy N s c) hn
    | take => simp [Op.noTake] at hn

/-- Claim C20: in every state reached from a new buffer using only `insert`,
`insertIfOK` and `remove` (no `take`), `empty` is true if and only if `count() = 0`,
and whenever `empty` is true `loadOffset = consumeOffset`. -/
theorem empty_iff_count_zero_without_take (N : Nat) (h1 : 1 ≤ N) (hN : N ≤ 255)
    (init : Nat → α) (ops : List (Op α)) (hn : Op.noTake ops = true) :
    ((Op.run N (RingBuf.new init) ops).empty = true
        ↔ (Op.run N (RingBuf.new init) ops).count N = 0) ∧
      ((Op.run N (RingBuf.new init) ops).empty = true →
        (Op.run N (RingBuf.new init) ops).loadOffset
          = (Op.run N (RingBuf.new init) ops).consumeOffset) := by
  have hr := run_inRange N h1 hN ops _ (new_inRange N h1 init)
  have ht := run_tidy N ops _ (new_tidy init) hn
  have hz := count_zero_iff N h1 hN _ hr
  exact ⟨⟨fun he => hz.mpr ⟨ht he, he⟩, fun h0 => (hz.mp h0).2⟩, ht⟩

theorem empty_iff_count_zero_without_take_witness :
    1 ≤ 2 ∧ 2 ≤ 255 ∧
      Op.noTake [Op.insert 1, Op.insertIfOK 2, Op.insertIfOK 3, Op.insert 4, Op.remove 2]
        = true ∧
      ((Op.run 2 (RingBuf.new (fun _ => 0))
          [Op.insert 1, Op.insertIfOK 2, Op.insertIfOK 3, Op.insert 4, Op.remove 2]).empty
          = true
        ↔ (Op.run 2 (RingBuf.new (fun _ => 0))
          [Op.insert 1, Op.insertIfOK 2, Op.insertIfOK 3, Op.insert 4, Op.remove 2]).count 2
          = 0) ∧
      ((Op.run 2 (RingBuf.new (fun _ => 0))
          [Op.insert 1, Op.insertIfOK 2, Op.insertIfOK 3, Op.insert 4, Op.remove 2]).empty
          = true →
        (Op.run 2 (RingBuf.new (fun _ => 0))
          [Op.insert 1, Op.insertIfOK 2, Op.insertIfOK 3, Op.insert 4, Op.remove 2]).loadOffset
          = (Op.run 2 (RingBuf.new (fun _ => 0))
            [Op.insert 1, Op.insertIfOK 2, Op.insertIfOK 3, Op.insert 4,
              Op.remove 2]).consumeOffset) :=
  ⟨by decide, by decide, by decide,
    empty_iff_count_zero_without_take 2 (by decide) (by decide) (fun _ => 0)
      [Op.insert 1, Op.insertIfOK 2, Op.insertIfOK 3, Op.insert 4, Op.remove 2] (by decide)⟩

end Reads

end RingBuffer
